import Mathlib

/-!
Formal model of the virtual-DOM tree builder and reconciler of
src/E4/axv230014/diff.js.

The JS file defines two functions:

* createTree(vnode): converts a virtual DOM description (a string for a
  text node, or an object with fields type, props, children for an
  element) into a real DOM node (lines 9-27).
* diff(oldVNode, newVNode, domNode): reconciles the real DOM node that
  corresponds to oldVNode so that it matches newVNode (lines 35-121).

Modelling conventions:

* A vnode is the inductive VNode below.  JS strings are the text
  variant.  JS objects are the elem variant; the field type may be
  missing (modelled as Option String, none standing for undefined),
  while props and children are always read through the source guards
  (vnode.props || and vnode.children || ), so a missing props or
  children object is observably the empty list and is modelled as such.
  props models a JS object literal: a list of key-value pairs whose keys
  are unique (the wf predicate below records that uniqueness).
* A real DOM node is the inductive DomNode.  Attribute collections are
  association lists; setAttribute and removeAttribute are modelled by
  setAttrList and removeAttrList with the DOM semantics
  (overwrite-in-place or append, respectively delete).
* Reconciliation both computes the updated node and records the trace of
  primitive mutations the JS performs on the pre-existing live tree
  (Mut below).  Operations performed on freshly built subtrees inside
  createTree are allocations, not mutations of pre-existing nodes, and
  are not traced.  Paths in trace entries are child-index paths from the
  node the call was given.
* diffNode embeds the control flow of diff for the only configuration
  the recursion of the source ever produces: both vnodes non-null and a
  concrete dom node.  diff embeds the full entry point, with null (JS
  null or undefined) arguments modelled by Option and JS TypeError
  faults modelled by the Outcome.fault constructor, which carries the
  trace of mutations performed before the fault.
-/

inductive VNode where
  | text (s : String)
  | elem (ty : Option String) (props : List (String × String)) (children : List VNode)

inductive DomNode where
  | text (content : String)
  | element (tag : String) (attrs : List (String × String)) (children : List DomNode)

/-- A primitive mutation of a pre-existing live node, as issued by the
reconciler.  The path is the list of child indices leading from the node
the reconciler was called on to the node the mutation targets. -/
inductive Mut where
  | setAttr (path : List Nat) (name value : String)
  | removeAttr (path : List Nat) (name : String)
  | setText (path : List Nat) (content : String)
  | appendChild (path : List Nat) (child : DomNode)
  | replaceChild (path : List Nat) (index : Nat) (newChild : DomNode)
  | removeChild (path : List Nat) (index : Nat)

def Mut.path : Mut → List Nat
  | .setAttr p _ _ => p
  | .removeAttr p _ => p
  | .setText p _ => p
  | .appendChild p _ => p
  | .replaceChild p _ _ => p
  | .removeChild p _ => p

/-- Re-root a mutation of a child node as a mutation seen from the parent
whose child index is i. -/
def Mut.under (i : Nat) : Mut → Mut
  | .setAttr p n v => .setAttr (i :: p) n v
  | .removeAttr p n => .removeAttr (i :: p) n
  | .setText p c => .setText (i :: p) c
  | .appendChild p c => .appendChild (i :: p) c
  | .replaceChild p j c => .replaceChild (i :: p) j c
  | .removeChild p j => .removeChild (i :: p) j

/-- vnode.type in JS: undefined on a string, the type field on an object
(itself possibly undefined, hence the Option). -/
def jsType : VNode → Option String
  | .text _ => none
  | .elem ty _ _ => ty

/-- vnode.props || \x7b\x7d in JS: empty on a string. -/
def jsProps : VNode → List (String × String)
  | .text _ => []
  | .elem _ p _ => p

/-- vnode.children || [] in JS: empty on a string. -/
def jsChildren : VNode → List VNode
  | .text _ => []
  | .elem _ _ c => c

/-- The JS membership test (key in obj) on a modelled object. -/
def hasKey (props : List (String × String)) (k : String) : Bool :=
  props.any (fun q => q.1 == k)

/-- The JS read obj[key] on a modelled object (none for undefined). -/
def getVal : List (String × String) → String → Option String
  | [], _ => none
  | q :: qs, k => if q.1 == k then some q.2 else getVal qs k

/-- DOM setAttribute on an attribute collection: overwrite the value in
place when the name is present, append the pair otherwise. -/
def setAttrList (a : List (String × String)) (k v : String) : List (String × String) :=
  if a.any (fun p => p.1 == k) then
    a.map (fun p => if p.1 == k then (k, v) else p)
  else
    a ++ [(k, v)]

/-- DOM removeAttribute on an attribute collection. -/
def removeAttrList (a : List (String × String)) (k : String) : List (String × String) :=
  a.filter (fun p => p.1 != k)

def DomNode.attrList : DomNode → List (String × String)
  | .text _ => []
  | .element _ a _ => a

def DomNode.withAttrList : DomNode → List (String × String) → DomNode
  | .text c, _ => .text c
  | .element t _ cs, a => .element t a cs

def DomNode.childList : DomNode → List DomNode
  | .text _ => []
  | .element _ _ cs => cs

def DomNode.withChildList : DomNode → List DomNode → DomNode
  | .text c, _ => .text c
  | .element t a _, cs => .element t a cs

/-- The JS assignment domNode.textContent = t.  On a text node it
replaces the character data; on an element it replaces the whole child
list by a single text node (or by nothing when t is empty), per the DOM
textContent setter. -/
def DomNode.setTextContent : DomNode → String → DomNode
  | .text _, t => .text t
  | .element tag a _, t => .element tag a (if t == "" then [] else [.text t])

/-- The attribute collection produced by createTree lines 17-19: a
setAttribute call for every entry of vnode.props, in order, starting
from the empty collection of a freshly created element. -/
def buildAttrs (props : List (String × String)) : List (String × String) :=
  props.foldl (fun a q => setAttrList a q.1 q.2) []

mutual
/-- createTree, diff.js lines 9-27.  document.createElement(vnode.type)
does not fault when the type field is missing: the Web IDL DOMString
conversion stringifies undefined, producing an element with tag
"undefined"; Option.getD models that conversion. -/
def createTree : VNode → DomNode
  | .text s => .text s
  | .elem ty props children =>
      .element (ty.getD "undefined") (buildAttrs props) (createTreeList children)
def createTreeList : List VNode → List DomNode
  | [] => []
  | c :: cs => createTree c :: createTreeList cs
end

/-- Attribute names removed by the loop of diff.js lines 76-80: names of
the old props object that are not present in the new props object, in
iteration order. -/
def removedKeys (oldP newP : List (String × String)) : List String :=
  (oldP.map Prod.fst).filter (fun k => !(hasKey newP k))

/-- Entries written by the loop of diff.js lines 82-86: entries of the
new props object whose name is absent from the old props object or whose
old value differs from the new one. -/
def setEntries (oldP newP : List (String × String)) : List (String × String) :=
  newP.filter (fun q => !(hasKey oldP q.1 && getVal oldP q.1 == some q.2))

def applyRemovals (a : List (String × String)) (ks : List String) : List (String × String) :=
  ks.foldl removeAttrList a

def applySets (a : List (String × String)) (es : List (String × String)) : List (String × String) :=
  es.foldl (fun a q => setAttrList a q.1 q.2) a

/-- The attribute phase of diff.js lines 72-87 applied to the attribute
collection of the live node: the updated collection together with the
trace of removeAttribute and setAttribute calls, in source order. -/
def attrPhase (oldP newP attrs : List (String × String)) :
    List (String × String) × List Mut :=
  (applySets (applyRemovals attrs (removedKeys oldP newP)) (setEntries oldP newP),
   (removedKeys oldP newP).map (Mut.removeAttr []) ++
     (setEntries oldP newP).map (fun q => Mut.setAttr [] q.1 q.2))

/-- Trace of the removal loop of diff.js lines 113-118: removeChild of
the last child, repeated until the child count is the target; the
recorded indices run from len - 1 down to the target. -/
def trimOps (len target : Nat) : List Mut :=
  (List.range (len - target)).map (fun j => Mut.removeChild [] (len - 1 - j))

mutual
/-- diff, lines 35-121, in the only configuration the recursive calls of
the source produce: both vnodes non-null and a concrete dom node.  The
result is the node now standing at the position the call targeted, the
flag saying whether that node was replaced through the parent (case 4),
and the trace of mutations of the pre-existing tree.

The four match arms realise the source case analysis:

* text/text is case 1 (lines 41-46); when the strings are equal there is
  no return, and execution falls through to the child block of lines
  89-118, which is a no-op because strings have no props or children.
* text/elem and elem/text compare vnode.type (undefined on the string
  side); when they differ this is case 4 (lines 64-69), a
  rebuild-and-replace.  When both are undefined (the element is missing
  its type) the source falls into case 5 with empty props/children on
  the text side; those degenerate branches are spelled out below with
  the empty lists substituted.  On a real DOM they would fault at the
  first setAttribute or appendChild on a text node; no theorem below
  relies on them.
* elem/elem with equal types is case 5 (lines 72-87) followed by the
  child block (lines 89-118): positional recursion over the first
  min-length children, then appends of built surplus new children, then
  removals from the end down to the new length. -/
def diffNode : VNode → VNode → DomNode → DomNode × Bool × List Mut
  | .text s, .text t, dom =>
      if s != t then (dom.setTextContent t, false, [Mut.setText [] t])
      else (dom, false, [])
  | .text s, .elem nty np nc, dom =>
      if jsType (.text s) != jsType (.elem nty np nc) then
        (createTree (.elem nty np nc), true, [])
      else
        -- degenerate case 5: old side is a string, so oldProps and
        -- oldChildren read as empty; minLength is 0 and the old length
        -- 0 is never greater than the new length, so every new child is
        -- built and appended and nothing is trimmed.
        let ap := attrPhase [] np dom.attrList
        let dom1 := dom.withAttrList ap.1
        let builds := createTreeList nc
        (dom1.withChildList (dom1.childList ++ builds), false,
          ap.2 ++ builds.map (Mut.appendChild []))
  | .elem oty op oc, .text t, dom =>
      if jsType (.elem oty op oc) != jsType (.text t) then
        (createTree (.text t), true, [])
      else
        -- degenerate case 5: new side is a string, so newProps and
        -- newChildren read as empty; minLength is 0, nothing is
        -- appended, and the trim loop runs exactly when oldChildren is
        -- non-empty, emptying the live child list.
        let ap := attrPhase op [] dom.attrList
        let dom1 := dom.withAttrList ap.1
        if oc.length > 0 then
          (dom1.withChildList (dom1.childList.take 0), false,
            ap.2 ++ trimOps dom1.childList.length 0)
        else (dom1, false, ap.2)
  | .elem oty op oc, .elem nty np nc, dom =>
      if jsType (.elem oty op oc) != jsType (.elem nty np nc) then
        (createTree (.elem nty np nc), true, [])
      else
        let ap := attrPhase op np dom.attrList
        let dom1 := dom.withAttrList ap.1
        let kids := diffChildren oc nc dom1.childList 0
        let builds := createTreeList (nc.drop oc.length)
        let cs2 := kids.1 ++ builds
        (dom1.withChildList (if oc.length > nc.length then cs2.take nc.length else cs2),
          false,
          ap.2 ++ kids.2 ++ builds.map (Mut.appendChild []) ++
            (if oc.length > nc.length then trimOps cs2.length nc.length else []))
def diffChildren : List VNode → List VNode → List DomNode → Nat → List DomNode × List Mut
  | o :: os, n :: ns, d :: ds, i =>
      let r := diffNode o n d
      let rest := diffChildren os ns ds (i + 1)
      (r.1 :: rest.1,
        (if r.2.1 then [Mut.replaceChild [] i r.1] else r.2.2.map (Mut.under i)) ++ rest.2)
  | _, _, ds, _ => (ds, [])
end

/-- Outcome of the full diff entry point: either normal completion with
the node now standing at the targeted position (none when the node was
removed by case 3, and equal to the null dom argument when a null dom
was never touched), the replaced flag, and the mutation trace, or a JS
TypeError fault carrying the trace of mutations performed before the
fault. -/
inductive Outcome where
  | ok (node : Option DomNode) (replaced : Bool) (trace : List Mut)
  | fault (trace : List Mut)

/-- Whether the case 5 / child block path of diff would dereference the
dom argument: any removeAttribute, any setAttribute, any positional
child recursion, any append, or any read of childNodes.length by the
trim loop. -/
def touchesDom (o n : VNode) : Bool :=
  !(removedKeys (jsProps o) (jsProps n)).isEmpty ||
    !(setEntries (jsProps o) (jsProps n)).isEmpty ||
    decide (0 < min (jsChildren o).length (jsChildren n).length) ||
    decide ((jsChildren o).length < (jsChildren n).length) ||
    decide ((jsChildren n).length < (jsChildren o).length)

/-- The diff entry point, lines 35-121, with nullish vnodes and a
possibly null dom node.  The source case order is kept: case 1 both
strings (different strings write textContent, equal strings fall through
to a block that touches nothing); case 2 old nullish (createTree is
called before domNode.appendChild, so a null new vnode faults inside
createTree on null.type, and a null or text dom faults at appendChild,
both before any mutation); case 3 new nullish (the node is removed
through its parent; a null dom faults reading null.parentNode); cases 4
and 5 via diffNode on a concrete dom, with the null-dom corner of case 5
faulting exactly when the path would dereference the dom. -/
def diff : Option VNode → Option VNode → Option DomNode → Outcome
  | some (.text s), some (.text t), dom =>
      if s != t then
        match dom with
        | some d => .ok (some (d.setTextContent t)) false [Mut.setText [] t]
        | none => .fault []
      else .ok dom false []
  | none, newV, dom =>
      match newV with
      | none => .fault []
      | some n =>
          match dom with
          | some (.element t a cs) =>
              .ok (some (.element t a (cs ++ [createTree n]))) false
                [Mut.appendChild [] (createTree n)]
          | some (.text _) => .fault []
          | none => .fault []
  | some _, none, dom =>
      match dom with
      | none => .fault []
      | some _ => .ok none false []
  | some o, some n, dom =>
      if jsType o != jsType n then
        match dom with
        | none => .fault []
        | some _ => .ok (some (createTree n)) true []
      else
        match dom with
        | some d =>
            match diffNode o n d with
            | (d2, repl, tr) => .ok (some d2) repl tr
        | none => if touchesDom o n then .fault [] else .ok none false []

mutual
/-- Well-formedness of a description, as assumed by the specification
data model: an element carries a tag name, its attribute mapping has
unique keys (it models a JS object), and its children are well formed. -/
def VNode.wf : VNode → Bool
  | .text _ => true
  | .elem ty props children =>
      ty.isSome && decide ((props.map Prod.fst).Nodup) && VNode.wfList children
def VNode.wfList : List VNode → Bool
  | [] => true
  | v :: vs => v.wf && VNode.wfList vs
end

/-- Two attribute collections denote the same attribute set: they agree
as partial maps from names to values. -/
def attrSameAt (a b : List (String × String)) : Bool :=
  a.all (fun q => getVal b q.1 == getVal a q.1)

def attrEquiv (a b : List (String × String)) : Bool :=
  attrSameAt a b && attrSameAt b a

mutual
/-- The live node faithfully represents the description: text content
matches, an element matches the tag, denotes exactly the attribute set
of the props mapping, and has children of the same number and order,
each representing the corresponding description child. -/
def realizes : DomNode → VNode → Bool
  | .text c, .text s => c == s
  | .element tag attrs cs, .elem (some t) props children =>
      tag == t && attrEquiv attrs props && realizesList cs children
  | _, _ => false
def realizesList : List DomNode → List VNode → Bool
  | [], [] => true
  | d :: ds, v :: vs => realizes d v && realizesList ds vs
  | _, _ => false
end

mutual
/-- Attribute-for-attribute and child-count-for-child-count equality of
two live trees, at every level. -/
def treeEquiv : DomNode → DomNode → Bool
  | .text a, .text b => a == b
  | .element t1 a1 c1, .element t2 a2 c2 =>
      t1 == t2 && attrEquiv a1 a2 && treeEquivList c1 c2
  | _, _ => false
def treeEquivList : List DomNode → List DomNode → Bool
  | [], [] => true
  | d :: ds, e :: es => treeEquiv d e && treeEquivList ds es
  | _, _ => false
end

/-- The child list produced by the child block of diff.js lines 89-118:
positional recursion on the first children, appended builds of the
surplus new children, and a trim from the end when the old list was
longer. -/
def childPhaseNodes (olds news : List VNode) (doms : List DomNode) (i : Nat) : List DomNode :=
  let cs2 := (diffChildren olds news doms i).1 ++ createTreeList (news.drop olds.length)
  if olds.length > news.length then cs2.take news.length else cs2

example : (diffNode (.elem (some "div") [("class", "a")] [.text "hi"])
    (.elem (some "div") [("class", "b")] [.text "bye"])
    (createTree (.elem (some "div") [("class", "a")] [.text "hi"]))) =
    (.element "div" [("class", "b")] [.text "bye"], false,
      [Mut.setAttr [] "class" "b", Mut.setText [0] "bye"]) := rfl

example : diff none none (some (.element "div" [] [])) = .fault [] := rfl

example : realizes (createTree (.elem (some "div") [("id", "x")] [.text "hi"]))
    (.elem (some "div") [("id", "x")] [.text "hi"]) = true := rfl

theorem hasKey_eq_isSome (p : List (String × String)) (k : String) :
    hasKey p k = (getVal p k).isSome := by
  induction p with
  | nil => rfl
  | cons q qs ih =>
    simp only [hasKey, List.any_cons, getVal] at *
    cases hqk : (q.1 == k) <;> simp [hqk, ih]

theorem getVal_of_mem {p : List (String × String)} (hnd : (p.map Prod.fst).Nodup)
    {q : String × String} (hq : q ∈ p) : getVal p q.1 = some q.2 := by
  induction p with
  | nil => cases hq
  | cons r rs ih =>
    simp only [List.map_cons, List.nodup_cons] at hnd
    rcases List.mem_cons.mp hq with h | h
    · subst h; simp [getVal]
    · have hne : r.1 ≠ q.1 := by
        intro he
        exact hnd.1 (he ▸ List.mem_map_of_mem Prod.fst h)
      simp [getVal, hne, ih hnd.2 h]

theorem mem_of_getVal {p : List (String × String)} {k v : String}
    (h : getVal p k = some v) : (k, v) ∈ p := by
  induction p with
  | nil => simp [getVal] at h
  | cons r rs ih =>
    simp only [getVal] at h
    by_cases hrk : r.1 = k
    · simp only [hrk, beq_self_eq_true, if_true, Option.some_inj] at h
      have : r = (k, v) := by cases r; simp_all
      rw [← this]
      exact List.mem_cons_self r rs
    · rw [if_neg (by simpa using hrk)] at h
      exact List.mem_cons_of_mem _ (ih h)

theorem getVal_append (a b : List (String × String)) (k : String) :
    getVal (a ++ b) k = (getVal a k).or (getVal b k) := by
  induction a with
  | nil => simp [getVal]
  | cons q qs ih =>
    by_cases h : q.1 = k <;> simp [getVal, h, ih]

theorem getVal_eq_none_of_not_hasKey {p : List (String × String)} {k : String}
    (h : hasKey p k = false) : getVal p k = none := by
  rw [hasKey_eq_isSome] at h
  cases hg : getVal p k with
  | none => rfl
  | some w => rw [hg] at h; simp at h

theorem getVal_removeAttrList_self (a : List (String × String)) (k : String) :
    getVal (removeAttrList a k) k = none := by
  induction a with
  | nil => rfl
  | cons q qs ih =>
    simp only [removeAttrList, List.filter_cons] at ih ⊢
    by_cases hq : q.1 = k
    · rw [if_neg (by simp [bne_iff_ne, hq])]
      exact ih
    · rw [if_pos (by simp [bne_iff_ne, hq])]
      simp only [getVal]
      rw [if_neg (by simpa using hq)]
      exact ih

theorem getVal_removeAttrList_ne {k k0 : String} (h : k ≠ k0)
    (a : List (String × String)) : getVal (removeAttrList a k0) k = getVal a k := by
  induction a with
  | nil => rfl
  | cons q qs ih =>
    simp only [removeAttrList, List.filter_cons] at ih ⊢
    by_cases hq : q.1 = k0
    · have hqk : ¬(q.1 = k) := fun he => h (by rw [← he, hq])
      rw [if_neg (by simp [bne_iff_ne, hq])]
      rw [ih]
      simp only [getVal]
      rw [if_neg (by simpa using hqk)]
    · rw [if_pos (by simp [bne_iff_ne, hq])]
      simp only [getVal]
      by_cases hqk : q.1 = k
      · simp [hqk]
      · rw [if_neg (by simpa using hqk), if_neg (by simpa using hqk)]
        exact ih

theorem getVal_mapSet_ne {k k0 : String} (h : k ≠ k0) (v : String)
    (a : List (String × String)) :
    getVal (a.map (fun p => if p.1 == k0 then (k0, v) else p)) k = getVal a k := by
  induction a with
  | nil => rfl
  | cons q qs ih =>
    simp only [List.map_cons]
    by_cases hq : q.1 = k0
    · rw [if_pos (by simpa using hq)]
      simp only [getVal]
      have hqk : ¬(q.1 = k) := fun he => h (by rw [← he, hq])
      rw [if_neg (by simp; exact fun he => h he.symm), if_neg (by simpa using hqk)]
      exact ih
    · rw [if_neg (by simpa using hq)]
      simp only [getVal]
      by_cases hqk : q.1 = k
      · simp [hqk]
      · rw [if_neg (by simpa using hqk), if_neg (by simpa using hqk)]
        exact ih

theorem getVal_setAttrList_self (a : List (String × String)) (k v : String) :
    getVal (setAttrList a k v) k = some v := by
  unfold setAttrList
  cases hany : a.any (fun p => p.1 == k) with
  | false =>
    simp only [Bool.false_eq_true, if_false]
    rw [getVal_append, getVal_eq_none_of_not_hasKey (p := a) (k := k) hany]
    simp [getVal]
  | true =>
    simp only [if_true]
    induction a with
    | nil => simp at hany
    | cons q qs ih =>
      simp only [List.map_cons]
      by_cases hq : q.1 = k
      · rw [if_pos (by simpa using hq)]
        simp [getVal]
      · rw [if_neg (by simpa using hq)]
        simp only [getVal]
        rw [if_neg (by simpa using hq)]
        simp only [List.any_cons, Bool.or_eq_true, beq_iff_eq] at hany
        rcases hany with h | h
        · exact absurd h hq
        · exact ih h

theorem getVal_setAttrList_ne {k k0 : String} (h : k ≠ k0) (v : String)
    (a : List (String × String)) : getVal (setAttrList a k0 v) k = getVal a k := by
  unfold setAttrList
  cases hany : a.any (fun p => p.1 == k0) with
  | false =>
    simp only [Bool.false_eq_true, if_false]
    rw [getVal_append]
    cases hg : getVal a k with
    | none => simp [getVal, h, Ne.symm h]
    | some w => simp
  | true =>
    simp only [if_true]
    exact getVal_mapSet_ne h v a

theorem getVal_applyRemovals (ks : List String) (a : List (String × String)) (k : String) :
    getVal (applyRemovals a ks) k = if k ∈ ks then none else getVal a k := by
  induction ks generalizing a with
  | nil => simp [applyRemovals]
  | cons k0 ks ih =>
    show getVal (applyRemovals (removeAttrList a k0) ks) k = _
    rw [ih]
    by_cases hk : k ∈ ks
    · simp [hk]
    · by_cases hk0 : k = k0
      · simp [hk, hk0, getVal_removeAttrList_self]
      · simp [hk, hk0, getVal_removeAttrList_ne hk0]

theorem getVal_applySets (es : List (String × String))
    (hnd : (es.map Prod.fst).Nodup) (a : List (String × String)) (k : String) :
    getVal (applySets a es) k = ((getVal es k).map some).getD (getVal a k) := by
  induction es generalizing a with
  | nil => simp [applySets, getVal]
  | cons q qs ih =>
    simp only [List.map_cons, List.nodup_cons] at hnd
    show getVal (applySets (setAttrList a q.1 q.2) qs) k = _
    by_cases hk : k = q.1
    · subst hk
      have hnone : getVal qs q.1 = none := by
        cases hg : getVal qs q.1 with
        | none => rfl
        | some w =>
          exact absurd (List.mem_map_of_mem Prod.fst (mem_of_getVal hg)) hnd.1
      rw [ih hnd.2, hnone]
      simp only [Option.map_none', Option.getD_none]
      rw [getVal_setAttrList_self]
      simp [getVal]
    · rw [ih hnd.2, getVal_setAttrList_ne hk]
      have : getVal (q :: qs) k = getVal qs k := by
        simp only [getVal]
        rw [if_neg (by simp; exact fun he => hk he.symm)]
      rw [this]

theorem hasKey_iff_mem_keys {p : List (String × String)} {k : String} :
    hasKey p k = true ↔ k ∈ p.map Prod.fst := by
  constructor
  · intro h
    rcases List.any_eq_true.mp h with ⟨q, hq, he⟩
    exact (beq_iff_eq.mp he) ▸ List.mem_map_of_mem Prod.fst hq
  · intro h
    rcases List.mem_map.mp h with ⟨q, hq, rfl⟩
    exact List.any_eq_true.mpr ⟨q, hq, by simp⟩

theorem attrEquiv_iff {a b : List (String × String)} :
    attrEquiv a b = true ↔ ∀ k, getVal a k = getVal b k := by
  constructor
  · intro h k
    simp only [attrEquiv, Bool.and_eq_true, attrSameAt, List.all_eq_true] at h
    cases hg : getVal a k with
    | some v =>
      have h1 := h.1 (k, v) (mem_of_getVal hg)
      simp only [beq_iff_eq] at h1
      rw [h1, hg]
    | none =>
      cases hgb : getVal b k with
      | none => rfl
      | some w =>
        have h1 := h.2 (k, w) (mem_of_getVal hgb)
        simp only [beq_iff_eq] at h1
        rw [hg, hgb] at h1
        exact absurd h1 (by simp)
  · intro h
    simp only [attrEquiv, Bool.and_eq_true, attrSameAt, List.all_eq_true]
    constructor
    · intro q _; simp [h q.1]
    · intro q _; simp [h q.1]

theorem getVal_setEntries_some {p1 p2 : List (String × String)}
    (h2 : (p2.map Prod.fst).Nodup) {k v : String} (hm : (k, v) ∈ p2)
    (hc : (hasKey p1 k && getVal p1 k == some v) = false) :
    getVal (setEntries p1 p2) k = some v := by
  have hnd : ((setEntries p1 p2).map Prod.fst).Nodup :=
    h2.sublist ((List.filter_sublist _).map Prod.fst)
  have hmem : (k, v) ∈ setEntries p1 p2 :=
    List.mem_filter.mpr ⟨hm, by simp only [hc]; rfl⟩
  exact getVal_of_mem hnd hmem

theorem getVal_setEntries_sub {p1 p2 : List (String × String)}
    (h2 : (p2.map Prod.fst).Nodup) {k w : String}
    (h : getVal (setEntries p1 p2) k = some w) : getVal p2 k = some w := by
  have hmem := mem_of_getVal h
  exact getVal_of_mem h2 (List.mem_filter.mp hmem).1

theorem attrPhase_getVal {p1 p2 : List (String × String)}
    (_h1 : (p1.map Prod.fst).Nodup) (h2 : (p2.map Prod.fst).Nodup)
    {attrs : List (String × String)} (heq : ∀ k, getVal attrs k = getVal p1 k)
    (k : String) : getVal (attrPhase p1 p2 attrs).1 k = getVal p2 k := by
  have hndse : ((setEntries p1 p2).map Prod.fst).Nodup :=
    h2.sublist ((List.filter_sublist _).map Prod.fst)
  show getVal (applySets (applyRemovals attrs (removedKeys p1 p2)) (setEntries p1 p2)) k = _
  rw [getVal_applySets _ hndse, getVal_applyRemovals]
  cases hg2 : getVal p2 k with
  | some v =>
    cases hc : (hasKey p1 k && getVal p1 k == some v) with
    | false =>
      rw [getVal_setEntries_some h2 (mem_of_getVal hg2) hc]
      rfl
    | true =>
      simp only [Bool.and_eq_true, beq_iff_eq] at hc
      have hse : getVal (setEntries p1 p2) k = none := by
        cases hs : getVal (setEntries p1 p2) k with
        | none => rfl
        | some w =>
          have hw : w = v := by
            have := getVal_setEntries_sub h2 hs
            rw [hg2] at this
            exact (Option.some_inj.mp this).symm
          subst hw
          have := (List.mem_filter.mp (mem_of_getVal hs)).2
          rw [hc.1, hc.2] at this
          simp at this
      rw [hse]
      have hnr : ¬(k ∈ removedKeys p1 p2) := by
        intro hmem
        have := (List.mem_filter.mp hmem).2
        have hk2 : hasKey p2 k = true := by
          rw [hasKey_eq_isSome, hg2]; rfl
        rw [hk2] at this
        simp at this
      rw [if_neg hnr]
      simp only [Option.map_none', Option.getD_none]
      rw [heq, hc.2]
  | none =>
    have hse : getVal (setEntries p1 p2) k = none := by
      cases hs : getVal (setEntries p1 p2) k with
      | none => rfl
      | some w =>
        have := getVal_setEntries_sub h2 hs
        rw [hg2] at this
        exact absurd this (by simp)
    rw [hse]
    simp only [Option.map_none', Option.getD_none]
    by_cases hr : k ∈ removedKeys p1 p2
    · rw [if_pos hr]
    · rw [if_neg hr, heq]
      cases hk1 : hasKey p1 k with
      | false => exact getVal_eq_none_of_not_hasKey hk1
      | true =>
        exfalso
        apply hr
        apply List.mem_filter.mpr
        refine ⟨hasKey_iff_mem_keys.mp hk1, ?_⟩
        have hk2 : hasKey p2 k = false := by
          rw [hasKey_eq_isSome, hg2]; rfl
        simp [hk2]

theorem removedKeys_self (p : List (String × String)) : removedKeys p p = [] := by
  unfold removedKeys
  rw [List.filter_eq_nil_iff]
  intro k hk
  have : hasKey p k = true := hasKey_iff_mem_keys.mpr hk
  simp [this]

theorem setEntries_self {p : List (String × String)} (h : (p.map Prod.fst).Nodup) :
    setEntries p p = [] := by
  unfold setEntries
  rw [List.filter_eq_nil_iff]
  intro q hq
  have hk : hasKey p q.1 = true := by
    rw [hasKey_eq_isSome, getVal_of_mem h hq]; rfl
  simp [hk, getVal_of_mem h hq]

theorem attrPhase_self {p : List (String × String)} (h : (p.map Prod.fst).Nodup)
    (attrs : List (String × String)) : attrPhase p p attrs = (attrs, []) := by
  unfold attrPhase
  rw [removedKeys_self, setEntries_self h]
  rfl

theorem withAttrList_attrList (d : DomNode) : d.withAttrList d.attrList = d := by
  cases d <;> rfl

theorem withChildList_childList (d : DomNode) : d.withChildList d.childList = d := by
  cases d <;> rfl

theorem childList_withAttrList (d : DomNode) (a : List (String × String)) :
    (d.withAttrList a).childList = d.childList := by
  cases d <;> rfl

theorem getVal_buildAttrs {p : List (String × String)} (h : (p.map Prod.fst).Nodup)
    (k : String) : getVal (buildAttrs p) k = getVal p k := by
  show getVal (applySets [] p) k = _
  rw [getVal_applySets p h]
  cases getVal p k <;> rfl

theorem applySets_eq_append {p : List (String × String)} (h : (p.map Prod.fst).Nodup) :
    ∀ acc : List (String × String), (∀ q ∈ p, hasKey acc q.1 = false) →
      applySets acc p = acc ++ p := by
  induction p with
  | nil => intro acc _; simp [applySets]
  | cons q qs ih =>
    intro acc hd
    simp only [List.map_cons, List.nodup_cons] at h
    show applySets (setAttrList acc q.1 q.2) qs = _
    have hq : hasKey acc q.1 = false := hd q (List.mem_cons_self _ _)
    have hset : setAttrList acc q.1 q.2 = acc ++ [q] := by
      unfold setAttrList
      rw [if_neg (by rw [show (acc.any fun p => p.1 == q.1) = hasKey acc q.1 from rfl, hq]; simp)]
    rw [hset, ih h.2 (acc ++ [q]) ?_, List.append_assoc]
    · rfl
    · intro r hr
      have hne : q.1 ≠ r.1 := by
        intro he
        exact h.1 (he ▸ List.mem_map_of_mem Prod.fst hr)
      rw [show hasKey (acc ++ [q]) r.1 = (hasKey acc r.1 || hasKey [q] r.1) from
        by simp [hasKey, List.any_append]]
      rw [hd r (List.mem_cons_of_mem _ hr)]
      simp [hasKey, hne]

theorem buildAttrs_eq_self {p : List (String × String)} (h : (p.map Prod.fst).Nodup) :
    buildAttrs p = p := by
  show applySets [] p = p
  rw [applySets_eq_append h [] (fun q _ => rfl)]
  rfl

theorem wf_elem_parts {ty : Option String} {props : List (String × String)}
    {children : List VNode} (h : VNode.wf (.elem ty props children) = true) :
    ty.isSome = true ∧ (props.map Prod.fst).Nodup ∧ VNode.wfList children = true := by
  simp only [VNode.wf, Bool.and_eq_true, decide_eq_true_eq] at h
  exact ⟨h.1.1, h.1.2, h.2⟩

theorem realizes_elem_inv {dom : DomNode} {t : String} {props : List (String × String)}
    {children : List VNode} (h : realizes dom (.elem (some t) props children) = true) :
    ∃ attrs cs, dom = .element t attrs cs ∧ attrEquiv attrs props = true ∧
      realizesList cs children = true := by
  cases dom with
  | text c => simp [realizes] at h
  | element tag attrs cs =>
    simp only [realizes, Bool.and_eq_true, beq_iff_eq] at h
    exact ⟨attrs, cs, by rw [h.1.1], h.1.2, h.2⟩

theorem realizes_text_inv {dom : DomNode} {s : String}
    (h : realizes dom (.text s) = true) : dom = .text s := by
  cases dom with
  | text c =>
    simp only [realizes, beq_iff_eq] at h
    rw [h]
  | element tag attrs cs => simp [realizes] at h

theorem realizesList_length {ds : List DomNode} :
    ∀ {vs : List VNode}, realizesList ds vs = true → ds.length = vs.length := by
  induction ds with
  | nil =>
    intro vs h
    cases vs with
    | nil => rfl
    | cons v vs => simp [realizesList] at h
  | cons d ds ih =>
    intro vs h
    cases vs with
    | nil => simp [realizesList] at h
    | cons v vs =>
      simp only [realizesList, Bool.and_eq_true] at h
      simp [List.length_cons, ih h.2]

mutual
theorem createTree_realizes : ∀ v : VNode, VNode.wf v = true →
    realizes (createTree v) v = true
  | .text s, _ => by simp [createTree, realizes]
  | .elem ty props children, h => by
      have hp := wf_elem_parts h
      cases ty with
      | none => simp at hp
      | some t =>
        show realizes (.element ((some t).getD "undefined") (buildAttrs props)
          (createTreeList children)) (.elem (some t) props children) = true
        simp only [Option.getD_some, realizes, Bool.and_eq_true]
        refine ⟨⟨by simp, attrEquiv_iff.mpr (fun k => getVal_buildAttrs hp.2.1 k)⟩, ?_⟩
        exact createTreeList_realizes children hp.2.2
theorem createTreeList_realizes : ∀ vs : List VNode, VNode.wfList vs = true →
    realizesList (createTreeList vs) vs = true
  | [], _ => rfl
  | v :: vs, h => by
      simp only [VNode.wfList, Bool.and_eq_true] at h
      simp only [createTreeList, realizesList, Bool.and_eq_true]
      exact ⟨createTree_realizes v h.1, createTreeList_realizes vs h.2⟩
end

theorem diffChildren_nil_left (news : List VNode) (doms : List DomNode) (i : Nat) :
    diffChildren [] news doms i = (doms, []) := by
  cases news <;> cases doms <;> rfl

theorem diffChildren_nil_right (o : VNode) (os : List VNode) (doms : List DomNode)
    (i : Nat) : diffChildren (o :: os) [] doms i = (doms, []) := by
  cases doms <;> rfl

theorem diffNode_elem_eq (ty : Option String) (op np : List (String × String))
    (oc nc : List VNode) (dom : DomNode) :
    diffNode (.elem ty op oc) (.elem ty np nc) dom =
      ((dom.withAttrList (attrPhase op np dom.attrList).1).withChildList
          (childPhaseNodes oc nc (dom.withAttrList (attrPhase op np dom.attrList).1).childList 0),
        false,
        (attrPhase op np dom.attrList).2 ++
          (diffChildren oc nc (dom.withAttrList (attrPhase op np dom.attrList).1).childList 0).2 ++
          (createTreeList (nc.drop oc.length)).map (Mut.appendChild []) ++
          (if oc.length > nc.length then
            trimOps ((diffChildren oc nc (dom.withAttrList (attrPhase op np dom.attrList).1).childList 0).1 ++
              createTreeList (nc.drop oc.length)).length nc.length
          else [])) := by
  simp [diffNode, jsType, childPhaseNodes]

theorem childPhaseNodes_cons (o n : VNode) (os ns : List VNode) (d : DomNode)
    (ds : List DomNode) (i : Nat) :
    childPhaseNodes (o :: os) (n :: ns) (d :: ds) i =
      (diffNode o n d).1 :: childPhaseNodes os ns ds (i + 1) := by
  simp only [childPhaseNodes]
  have h1 : (diffChildren (o :: os) (n :: ns) (d :: ds) i).1 =
      (diffNode o n d).1 :: (diffChildren os ns ds (i + 1)).1 := rfl
  rw [h1]
  simp only [List.length_cons, List.drop_succ_cons, List.cons_append]
  by_cases h : os.length > ns.length
  · rw [if_pos (by omega), if_pos h, List.take_succ_cons]
  · rw [if_neg (by omega), if_neg h]

theorem childPhaseNodes_cons_nil (o : VNode) (os : List VNode) (doms : List DomNode)
    (i : Nat) : childPhaseNodes (o :: os) [] doms i = [] := by
  simp [childPhaseNodes, diffChildren_nil_right]

theorem childPhaseNodes_nil (news : List VNode) (doms : List DomNode) (i : Nat) :
    childPhaseNodes [] news doms i = doms ++ createTreeList news := by
  simp [childPhaseNodes, diffChildren_nil_left]

mutual
theorem diffNode_realizes : ∀ (old new : VNode) (dom : DomNode), VNode.wf old = true →
    VNode.wf new = true → realizes dom old = true →
    realizes (diffNode old new dom).1 new = true
  | .text s, .text t, dom, _, _, hr => by
      have hd := realizes_text_inv hr
      subst hd
      by_cases hst : s = t
      · subst hst
        simp [diffNode, realizes]
      · simp [diffNode, bne_iff_ne, hst, DomNode.setTextContent, realizes]
  | .text s, .elem nty np nc, dom, _, hn, _ => by
      have hp := wf_elem_parts hn
      cases nty with
      | none => simp at hp
      | some t =>
        have he : diffNode (.text s) (.elem (some t) np nc) dom =
            (createTree (.elem (some t) np nc), true, []) := by
          simp [diffNode, jsType]
        rw [he]
        exact createTree_realizes _ hn
  | .elem oty op oc, .text t, dom, ho, _, _ => by
      have hp := wf_elem_parts ho
      cases oty with
      | none => simp at hp
      | some t0 =>
        have he : diffNode (.elem (some t0) op oc) (.text t) dom =
            (createTree (.text t), true, []) := by
          simp [diffNode, jsType]
        rw [he]
        simp [createTree, realizes]
  | .elem oty op oc, .elem nty np nc, dom, ho, hn, hr => by
      have hpo := wf_elem_parts ho
      have hpn := wf_elem_parts hn
      cases oty with
      | none => simp at hpo
      | some t1 =>
        cases nty with
        | none => simp at hpn
        | some t2 =>
          by_cases hty : t1 = t2
          · subst hty
            rcases realizes_elem_inv hr with ⟨attrs, cs, hdom, hae, hrl⟩
            subst hdom
            rw [diffNode_elem_eq]
            show realizes (.element t1 (attrPhase op np attrs).1
              (childPhaseNodes oc nc cs 0)) (.elem (some t1) np nc) = true
            simp only [realizes, Bool.and_eq_true]
            refine ⟨⟨by simp, ?_⟩, ?_⟩
            · exact attrEquiv_iff.mpr
                (attrPhase_getVal hpo.2.1 hpn.2.1 (attrEquiv_iff.mp hae))
            · exact childPhase_realizes oc nc cs 0 hpo.2.2 hpn.2.2 hrl
          · have he : diffNode (.elem (some t1) op oc) (.elem (some t2) np nc) dom =
                (createTree (.elem (some t2) np nc), true, []) := by
              simp [diffNode, jsType, hty]
            rw [he]
            exact createTree_realizes _ hn
theorem childPhase_realizes : ∀ (olds news : List VNode) (doms : List DomNode) (i : Nat),
    VNode.wfList olds = true → VNode.wfList news = true → realizesList doms olds = true →
    realizesList (childPhaseNodes olds news doms i) news = true
  | [], news, doms, i, _, hn, hr => by
      have hd : doms = [] := by
        cases doms with
        | nil => rfl
        | cons d ds => simp [realizesList] at hr
      subst hd
      rw [childPhaseNodes_nil]
      simpa using createTreeList_realizes news hn
  | o :: os, news, doms, i, ho, hn, hr => by
      cases news with
      | nil =>
        rw [childPhaseNodes_cons_nil]
        rfl
      | cons n ns =>
        cases doms with
        | nil => simp [realizesList] at hr
        | cons d ds =>
          rw [childPhaseNodes_cons]
          simp only [realizesList, Bool.and_eq_true] at hr ⊢
          simp only [VNode.wfList, Bool.and_eq_true] at ho hn
          exact ⟨diffNode_realizes o n d ho.1 hn.1 hr.1,
            childPhase_realizes os ns ds (i + 1) ho.2 hn.2 hr.2⟩
end

mutual
theorem diffNode_self : ∀ (d : VNode) (dom : DomNode), VNode.wf d = true →
    realizes dom d = true → diffNode d d dom = (dom, false, [])
  | .text s, dom, _, hr => by
      have hd := realizes_text_inv hr
      subst hd
      simp [diffNode]
  | .elem ty props children, dom, h, hr => by
      have hp := wf_elem_parts h
      cases ty with
      | none => simp at hp
      | some t =>
        rcases realizes_elem_inv hr with ⟨attrs, cs, hdom, _, hrl⟩
        subst hdom
        rw [diffNode_elem_eq, attrPhase_self hp.2.1]
        have hk := diffChildren_self children cs 0 hp.2.2 hrl
        simp [childPhaseNodes, hk, List.drop_length, createTreeList,
          DomNode.withAttrList, DomNode.attrList, DomNode.childList, DomNode.withChildList]
theorem diffChildren_self : ∀ (vs : List VNode) (doms : List DomNode) (i : Nat),
    VNode.wfList vs = true → realizesList doms vs = true →
    diffChildren vs vs doms i = (doms, [])
  | [], doms, i, _, hr => by
      have hd : doms = [] := by
        cases doms with
        | nil => rfl
        | cons d ds => simp [realizesList] at hr
      subst hd
      rfl
  | v :: vs, doms, i, h, hr => by
      cases doms with
      | nil => simp [realizesList] at hr
      | cons d ds =>
        simp only [VNode.wfList, Bool.and_eq_true] at h
        simp only [realizesList, Bool.and_eq_true] at hr
        have h1 := diffNode_self v d h.1 hr.1
        have h2 := diffChildren_self vs ds (i + 1) h.2 hr.2
        simp [diffChildren, h1, h2]
end

mutual
theorem realizes_unique : ∀ (v : VNode) (x y : DomNode), realizes x v = true →
    realizes y v = true → treeEquiv x y = true
  | .text s, x, y, hx, hy => by
      rw [realizes_text_inv hx, realizes_text_inv hy]
      simp [treeEquiv]
  | .elem ty props children, x, y, hx, hy => by
      cases ty with
      | none => cases x <;> simp [realizes] at hx
      | some t =>
        rcases realizes_elem_inv hx with ⟨a1, c1, hx1, he1, hl1⟩
        rcases realizes_elem_inv hy with ⟨a2, c2, hy1, he2, hl2⟩
        subst hx1
        subst hy1
        simp only [treeEquiv, Bool.and_eq_true]
        refine ⟨⟨by simp, ?_⟩, realizesList_unique children c1 c2 hl1 hl2⟩
        exact attrEquiv_iff.mpr
          (fun k => (attrEquiv_iff.mp he1 k).trans (attrEquiv_iff.mp he2 k).symm)
theorem realizesList_unique : ∀ (vs : List VNode) (xs ys : List DomNode),
    realizesList xs vs = true → realizesList ys vs = true → treeEquivList xs ys = true
  | [], xs, ys, hx, hy => by
      cases xs with
      | nil =>
        cases ys with
        | nil => rfl
        | cons y ys => simp [realizesList] at hy
      | cons x xs => simp [realizesList] at hx
  | v :: vs, xs, ys, hx, hy => by
      cases xs with
      | nil => simp [realizesList] at hx
      | cons x xs =>
        cases ys with
        | nil => simp [realizesList] at hy
        | cons y ys =>
          simp only [realizesList, Bool.and_eq_true] at hx hy
          simp only [treeEquivList, Bool.and_eq_true]
          exact ⟨realizes_unique v x y hx.1 hy.1, realizesList_unique vs xs ys hx.2 hy.2⟩
end

theorem diffChildren_trace_shape : ∀ (olds news : List VNode) (doms : List DomNode)
    (i : Nat) (m : Mut), m ∈ (diffChildren olds news doms i).2 →
    m.path ≠ [] ∨ ∃ j c, m = Mut.replaceChild [] j c
  | [], news, doms, i, m, hm => by
      rw [diffChildren_nil_left] at hm
      simp at hm
  | o :: os, [], doms, i, m, hm => by
      rw [diffChildren_nil_right] at hm
      simp at hm
  | o :: os, n :: ns, [], i, m, hm => by
      have he : diffChildren (o :: os) (n :: ns) ([] : List DomNode) i = ([], []) := rfl
      rw [he] at hm
      simp at hm
  | o :: os, n :: ns, d :: ds, i, m, hm => by
      have he : (diffChildren (o :: os) (n :: ns) (d :: ds) i).2 =
          (if (diffNode o n d).2.1 then [Mut.replaceChild [] i (diffNode o n d).1]
            else (diffNode o n d).2.2.map (Mut.under i)) ++ (diffChildren os ns ds (i + 1)).2 := rfl
      rw [he] at hm
      rcases List.mem_append.mp hm with h | h
      · by_cases hrep : (diffNode o n d).2.1 = true
        · rw [if_pos hrep] at h
          simp only [List.mem_singleton] at h
          exact Or.inr ⟨i, (diffNode o n d).1, h⟩
        · rw [if_neg hrep] at h
          rcases List.mem_map.mp h with ⟨m0, _, hoeq⟩
          left
          rw [← hoeq]
          cases m0 <;> simp [Mut.under, Mut.path]
      · exact diffChildren_trace_shape os ns ds (i + 1) m h

theorem createTreeList_length : ∀ vs : List VNode, (createTreeList vs).length = vs.length
  | [] => rfl
  | v :: vs => by simp [createTreeList, createTreeList_length vs]

theorem createTreeList_get : ∀ (vs : List VNode) (j : Nat) (h : j < (createTreeList vs).length)
    (h2 : j < vs.length), (createTreeList vs).get ⟨j, h⟩ = createTree (vs.get ⟨j, h2⟩)
  | v :: vs, 0, _, _ => rfl
  | v :: vs, j + 1, h, h2 => by
      have hlt : j < (createTreeList vs).length := by
        rw [createTreeList_length]
        exact Nat.lt_of_succ_lt_succ h2
      exact createTreeList_get vs j hlt (Nat.lt_of_succ_lt_succ h2)

theorem diffChildren_fst_length : ∀ (olds news : List VNode) (doms : List DomNode) (i : Nat),
    (diffChildren olds news doms i).1.length = doms.length
  | [], news, doms, i => by rw [diffChildren_nil_left]
  | o :: os, [], doms, i => by rw [diffChildren_nil_right]
  | o :: os, n :: ns, [], i => rfl
  | o :: os, n :: ns, d :: ds, i => by
      have he : (diffChildren (o :: os) (n :: ns) (d :: ds) i).1 =
          (diffNode o n d).1 :: (diffChildren os ns ds (i + 1)).1 := rfl
      rw [he]
      simp [diffChildren_fst_length os ns ds (i + 1)]

theorem diffChildren_fst_get : ∀ (olds news : List VNode) (doms : List DomNode) (i j : Nat)
    (h1 : j < olds.length) (h2 : j < news.length) (h3 : j < doms.length)
    (h4 : j < (diffChildren olds news doms i).1.length),
    (diffChildren olds news doms i).1.get ⟨j, h4⟩ =
      (diffNode (olds.get ⟨j, h1⟩) (news.get ⟨j, h2⟩) (doms.get ⟨j, h3⟩)).1
  | o :: os, n :: ns, d :: ds, i, 0, _, _, _, _ => rfl
  | o :: os, n :: ns, d :: ds, i, j + 1, h1, h2, h3, h4 => by
      have hlt : j < (diffChildren os ns ds (i + 1)).1.length := by
        rw [diffChildren_fst_length]
        exact Nat.lt_of_succ_lt_succ h3
      exact diffChildren_fst_get os ns ds (i + 1) j (Nat.lt_of_succ_lt_succ h1)
        (Nat.lt_of_succ_lt_succ h2) (Nat.lt_of_succ_lt_succ h3) hlt
  | [], news, doms, i, j, h1, _, _, _ => by simp at h1
  | o :: os, [], doms, i, j, _, h2, _, _ => by simp at h2
  | o :: os, n :: ns, [], i, j, _, _, h3, _ => by simp at h3

theorem mem_removedKeys {p1 p2 : List (String × String)} {k : String} :
    k ∈ removedKeys p1 p2 ↔ hasKey p1 k = true ∧ hasKey p2 k = false := by
  unfold removedKeys
  rw [List.mem_filter]
  constructor
  · rintro ⟨hm, hc⟩
    simp only [Bool.not_eq_true'] at hc
    exact ⟨hasKey_iff_mem_keys.mpr hm, hc⟩
  · rintro ⟨h1, h2⟩
    exact ⟨hasKey_iff_mem_keys.mp h1, by simp [h2]⟩

theorem mem_setEntries_iff {p1 p2 : List (String × String)}
    (h2 : (p2.map Prod.fst).Nodup) {k v : String} :
    (k, v) ∈ setEntries p1 p2 ↔
      getVal p2 k = some v ∧ ¬(hasKey p1 k = true ∧ getVal p1 k = some v) := by
  unfold setEntries
  rw [List.mem_filter]
  constructor
  · rintro ⟨hm, hc⟩
    refine ⟨getVal_of_mem h2 hm, ?_⟩
    rintro ⟨ha, hb⟩
    rw [show ((k, v).1 : String) = k from rfl, show ((k, v).2 : String) = v from rfl] at hc
    rw [ha, hb] at hc
    simp at hc
  · rintro ⟨hg, hc⟩
    refine ⟨mem_of_getVal hg, ?_⟩
    rw [show ((k, v).1 : String) = k from rfl, show ((k, v).2 : String) = v from rfl]
    cases hhk : hasKey p1 k with
    | false => simp
    | true =>
      have : ¬(getVal p1 k = some v) := fun hb => hc ⟨hhk, hb⟩
      simp [this]

theorem mem_attrPhase_removeAttr {p1 p2 attrs : List (String × String)} {k : String} :
    Mut.removeAttr [] k ∈ (attrPhase p1 p2 attrs).2 ↔ k ∈ removedKeys p1 p2 := by
  show Mut.removeAttr [] k ∈ (removedKeys p1 p2).map (Mut.removeAttr []) ++
    (setEntries p1 p2).map (fun q => Mut.setAttr [] q.1 q.2) ↔ _
  rw [List.mem_append]
  constructor
  · rintro (h | h)
    · rcases List.mem_map.mp h with ⟨a, ha, he⟩
      simp only [Mut.removeAttr.injEq] at he
      rw [← he.2]
      exact ha
    · rcases List.mem_map.mp h with ⟨q, _, he⟩
      simp at he
  · intro h
    exact Or.inl (List.mem_map_of_mem _ h)

theorem mem_attrPhase_setAttr {p1 p2 attrs : List (String × String)} {k v : String} :
    Mut.setAttr [] k v ∈ (attrPhase p1 p2 attrs).2 ↔ (k, v) ∈ setEntries p1 p2 := by
  show Mut.setAttr [] k v ∈ (removedKeys p1 p2).map (Mut.removeAttr []) ++
    (setEntries p1 p2).map (fun q => Mut.setAttr [] q.1 q.2) ↔ _
  rw [List.mem_append]
  constructor
  · rintro (h | h)
    · rcases List.mem_map.mp h with ⟨a, _, he⟩
      simp at he
    · rcases List.mem_map.mp h with ⟨q, hq, he⟩
      simp only [Mut.setAttr.injEq] at he
      have hqe : q = (k, v) := by
        cases q
        simp only [Prod.mk.injEq]
        exact ⟨he.2.1, he.2.2⟩
      rw [← hqe]
      exact hq
  · intro h
    exact Or.inr (List.mem_map.mpr ⟨(k, v), h, rfl⟩)

theorem not_mem_trimOps_attr {len target : Nat} {m : Mut} (hm : m ∈ trimOps len target) :
    ∀ k v, m ≠ Mut.setAttr [] k v ∧ m ≠ Mut.removeAttr [] k := by
  rcases List.mem_map.mp hm with ⟨j, _, he⟩
  intro k v
  rw [← he]
  exact ⟨by simp, by simp⟩

theorem childPhaseNodes_length (olds news : List VNode) (doms : List DomNode) (i : Nat)
    (h : doms.length = olds.length) :
    (childPhaseNodes olds news doms i).length = news.length := by
  unfold childPhaseNodes
  by_cases hc : olds.length > news.length
  · rw [if_pos hc, List.length_take, List.length_append, diffChildren_fst_length,
      createTreeList_length, List.length_drop, h]
    omega
  · rw [if_neg hc, List.length_append, diffChildren_fst_length,
      createTreeList_length, List.length_drop, h]
    omega

theorem childPhaseNodes_get_lt (olds news : List VNode) (doms : List DomNode) (i j : Nat)
    (h : doms.length = olds.length) (h1 : j < olds.length) (h2 : j < news.length)
    (h3 : j < doms.length) (hj : j < (childPhaseNodes olds news doms i).length) :
    (childPhaseNodes olds news doms i).get ⟨j, hj⟩ =
      (diffNode (olds.get ⟨j, h1⟩) (news.get ⟨j, h2⟩) (doms.get ⟨j, h3⟩)).1 := by
  have hk : j < (diffChildren olds news doms i).1.length := by
    rw [diffChildren_fst_length]
    exact h3
  have hmain := diffChildren_fst_get olds news doms i j h1 h2 h3 hk
  revert hj
  unfold childPhaseNodes
  by_cases hc : olds.length > news.length
  · rw [if_pos hc]
    intro hj
    rw [List.get_eq_getElem, List.getElem_take, List.getElem_append_left hk]
    rw [List.get_eq_getElem] at hmain
    exact hmain
  · rw [if_neg hc]
    intro hj
    rw [List.get_eq_getElem, List.getElem_append_left hk]
    rw [List.get_eq_getElem] at hmain
    exact hmain

theorem childPhaseNodes_get_ge (olds news : List VNode) (doms : List DomNode) (i j : Nat)
    (h : doms.length = olds.length) (hge : olds.length ≤ j) (h2 : j < news.length)
    (hj : j < (childPhaseNodes olds news doms i).length) :
    (childPhaseNodes olds news doms i).get ⟨j, hj⟩ = createTree (news.get ⟨j, h2⟩) := by
  have hc : ¬(olds.length > news.length) := by omega
  revert hj
  unfold childPhaseNodes
  rw [if_neg hc]
  intro hj
  have hk : (diffChildren olds news doms i).1.length ≤ j := by
    rw [diffChildren_fst_length, h]
    exact hge
  rw [List.get_eq_getElem, List.getElem_append_right hk]
  have hlt : j - (diffChildren olds news doms i).1.length <
      (createTreeList (news.drop olds.length)).length := by
    rw [createTreeList_length, List.length_drop, diffChildren_fst_length, h]
    omega
  have hlt2 : j - (diffChildren olds news doms i).1.length <
      (news.drop olds.length).length := by
    rw [List.length_drop, diffChildren_fst_length, h]
    omega
  rw [← List.get_eq_getElem (createTreeList (news.drop olds.length))
      ⟨j - (diffChildren olds news doms i).1.length, hlt⟩]
  rw [createTreeList_get _ _ hlt hlt2]
  congr 1
  rw [List.get_eq_getElem, List.get_eq_getElem, List.getElem_drop]
  have hidx : olds.length + (j - (diffChildren olds news doms i).1.length) = j := by
    rw [diffChildren_fst_length, h]
    omega
  simp only [hidx]

theorem attrList_withChildList (d : DomNode) (cs : List DomNode) :
    (d.withChildList cs).attrList = d.attrList := by
  cases d <;> rfl

theorem diffNode_root_removeAttr (ty : Option String) (op np : List (String × String))
    (oc nc : List VNode) (dom : DomNode) (k : String) :
    Mut.removeAttr [] k ∈ (diffNode (.elem ty op oc) (.elem ty np nc) dom).2.2 ↔
      k ∈ removedKeys op np := by
  rw [diffNode_elem_eq]
  show Mut.removeAttr [] k ∈ (attrPhase op np dom.attrList).2 ++ _ ++ _ ++ _ ↔ _
  simp only [List.mem_append]
  constructor
  · rintro (((h | h) | h) | h)
    · exact mem_attrPhase_removeAttr.mp h
    · rcases diffChildren_trace_shape _ _ _ _ _ h with hp | ⟨j, c, he⟩
      · exact absurd rfl hp
      · simp at he
    · rcases List.mem_map.mp h with ⟨c, _, he⟩
      simp at he
    · by_cases hcond : oc.length > nc.length
      · rw [if_pos hcond] at h
        exact absurd rfl (not_mem_trimOps_attr h k "").2
      · rw [if_neg hcond] at h
        simp at h
  · intro h
    exact Or.inl (Or.inl (Or.inl (mem_attrPhase_removeAttr.mpr h)))

theorem diffNode_root_setAttr (ty : Option String) (op np : List (String × String))
    (oc nc : List VNode) (dom : DomNode) (k v : String) :
    Mut.setAttr [] k v ∈ (diffNode (.elem ty op oc) (.elem ty np nc) dom).2.2 ↔
      (k, v) ∈ setEntries op np := by
  rw [diffNode_elem_eq]
  show Mut.setAttr [] k v ∈ (attrPhase op np dom.attrList).2 ++ _ ++ _ ++ _ ↔ _
  simp only [List.mem_append]
  constructor
  · rintro (((h | h) | h) | h)
    · exact mem_attrPhase_setAttr.mp h
    · rcases diffChildren_trace_shape _ _ _ _ _ h with hp | ⟨j, c, he⟩
      · exact absurd rfl hp
      · simp at he
    · rcases List.mem_map.mp h with ⟨c, _, he⟩
      simp at he
    · by_cases hcond : oc.length > nc.length
      · rw [if_pos hcond] at h
        exact absurd rfl (not_mem_trimOps_attr h k v).1
      · rw [if_neg hcond] at h
        simp at h
  · intro h
    exact Or.inl (Or.inl (Or.inl (mem_attrPhase_setAttr.mpr h)))

theorem diffNode_elem_result_attrList (t : String) (op np attrs : List (String × String))
    (oc nc : List VNode) (cs : List DomNode) :
    (diffNode (.elem (some t) op oc) (.elem (some t) np nc)
      (.element t attrs cs)).1.attrList = (attrPhase op np attrs).1 := by
  rw [diffNode_elem_eq]
  rfl

theorem getD_eq_get {α : Type} : ∀ (l : List α) (j : Nat) (h : j < l.length)
    (d : α), l.getD j d = l.get ⟨j, h⟩
  | a :: l, 0, _, d => rfl
  | a :: l, j + 1, h, d => getD_eq_get l j (Nat.lt_of_succ_lt_succ h) d

/-- Claim C1: for every non-null old element description, non-null new element
description, and live node that corresponds to the old description, after
reconciliation the node standing at the targeted position represents the new
description exactly: its attribute set equals the attribute set of the new
description, and the number and left-to-right order of its children equals the
number and order of the children of the new description (realizes states
exactly this, recursively). -/
theorem claim_C1 (ot nt : String) (op np : List (String × String)) (oc nc : List VNode)
    (dom : DomNode) (ho : VNode.wf (.elem (some ot) op oc) = true)
    (hn : VNode.wf (.elem (some nt) np nc) = true)
    (hr : realizes dom (.elem (some ot) op oc) = true) :
    realizes (diffNode (.elem (some ot) op oc) (.elem (some nt) np nc) dom).1
      (.elem (some nt) np nc) = true :=
  diffNode_realizes _ _ dom ho hn hr

theorem claim_C1_witness :
    realizes (diffNode (.elem (some "div") [("class", "a")] [.text "hi"])
      (.elem (some "div") [("class", "b")] [.text "bye"])
      (createTree (.elem (some "div") [("class", "a")] [.text "hi"]))).1
      (.elem (some "div") [("class", "b")] [.text "bye"]) = true :=
  claim_C1 "div" "div" [("class", "a")] [("class", "b")] [.text "hi"] [.text "bye"]
    (createTree (.elem (some "div") [("class", "a")] [.text "hi"]))
    (by rfl) (by rfl) (by rfl)

/-- Claim C2: reconciling two element descriptions with the same tag name
removes from the live node every attribute name present on the old element but
absent from the new mapping, sets every attribute of the new mapping whose
value differs from or is absent in the old mapping, and issues no root-level
setAttribute or removeAttribute at all for an attribute with identical
presence and value in both mappings. -/
theorem claim_C2 (t : String) (p1 p2 : List (String × String)) (c1 c2 : List VNode)
    (dom : DomNode) (ho : VNode.wf (.elem (some t) p1 c1) = true)
    (hn : VNode.wf (.elem (some t) p2 c2) = true)
    (hr : realizes dom (.elem (some t) p1 c1) = true) :
    (∀ k, hasKey p1 k = true → hasKey p2 k = false →
      Mut.removeAttr [] k ∈
          (diffNode (.elem (some t) p1 c1) (.elem (some t) p2 c2) dom).2.2 ∧
        getVal (diffNode (.elem (some t) p1 c1) (.elem (some t) p2 c2) dom).1.attrList
          k = none) ∧
    (∀ k v, getVal p2 k = some v → getVal p1 k ≠ some v →
      Mut.setAttr [] k v ∈
          (diffNode (.elem (some t) p1 c1) (.elem (some t) p2 c2) dom).2.2 ∧
        getVal (diffNode (.elem (some t) p1 c1) (.elem (some t) p2 c2) dom).1.attrList
          k = some v) ∧
    (∀ k v, getVal p1 k = some v → getVal p2 k = some v →
      (∀ v2, Mut.setAttr [] k v2 ∉
          (diffNode (.elem (some t) p1 c1) (.elem (some t) p2 c2) dom).2.2) ∧
        Mut.removeAttr [] k ∉
          (diffNode (.elem (some t) p1 c1) (.elem (some t) p2 c2) dom).2.2) := by
  have hpo := wf_elem_parts ho
  have hpn := wf_elem_parts hn
  rcases realizes_elem_inv hr with ⟨attrs, cs, hdom, hae, hrl⟩
  subst hdom
  have hav : ∀ k, getVal (diffNode (.elem (some t) p1 c1) (.elem (some t) p2 c2)
      (.element t attrs cs)).1.attrList k = getVal p2 k := by
    intro k
    rw [diffNode_elem_result_attrList]
    exact attrPhase_getVal hpo.2.1 hpn.2.1 (attrEquiv_iff.mp hae) k
  refine ⟨?_, ?_, ?_⟩
  · intro k h1 h2
    refine ⟨(diffNode_root_removeAttr _ _ _ _ _ _ _).mpr (mem_removedKeys.mpr ⟨h1, h2⟩), ?_⟩
    rw [hav k]
    exact getVal_eq_none_of_not_hasKey h2
  · intro k v hg hne
    refine ⟨(diffNode_root_setAttr _ _ _ _ _ _ _ _).mpr ?_, by rw [hav k]; exact hg⟩
    exact (mem_setEntries_iff hpn.2.1).mpr ⟨hg, fun hc => hne hc.2⟩
  · intro k v h1 h2
    constructor
    · intro v2 hmem
      have hse := (mem_setEntries_iff hpn.2.1).mp
        ((diffNode_root_setAttr _ _ _ _ _ _ _ _).mp hmem)
      have hv2 : v2 = v := by
        rw [hse.1] at h2
        exact (Option.some_inj.mp h2)
      apply hse.2
      have hk1 : hasKey p1 k = true := by rw [hasKey_eq_isSome, h1]; rfl
      exact ⟨hk1, by rw [h1, hv2]⟩
    · intro hmem
      have hrm := mem_removedKeys.mp ((diffNode_root_removeAttr _ _ _ _ _ _ _).mp hmem)
      have hk2 : hasKey p2 k = true := by rw [hasKey_eq_isSome, h2]; rfl
      rw [hrm.2] at hk2
      simp at hk2

theorem claim_C2_witness :
    Mut.setAttr [] "class" "b" ∈ (diffNode (.elem (some "div") [("class", "a")] [])
      (.elem (some "div") [("class", "b")] [])
      (createTree (.elem (some "div") [("class", "a")] []))).2.2 :=
  ((claim_C2 "div" [("class", "a")] [("class", "b")] [] []
    (createTree (.elem (some "div") [("class", "a")] []))
    (by rfl) (by rfl) (by rfl)).2.1 "class" "b" (by rfl) (by simp [getVal])).1

/-- Claim C3: reconciling two same-tag element descriptions leaves the live
node with exactly as many children as the new description; each position below
the common length holds the in-place reconciliation of the original live child
at that same position (no repositioning); and each surplus position, when the
new list is longer, holds a freshly built copy of the corresponding surplus new
child, appended at the end in order.  When the old list is longer, the child
count conclusion shows the trailing live children beyond the new length are
gone while the surviving positions are the reconciled originals. -/
theorem claim_C3 (t : String) (p1 p2 : List (String × String)) (c1 c2 : List VNode)
    (dom : DomNode) (ho : VNode.wf (.elem (some t) p1 c1) = true)
    (hn : VNode.wf (.elem (some t) p2 c2) = true)
    (hr : realizes dom (.elem (some t) p1 c1) = true) :
    ((diffNode (.elem (some t) p1 c1) (.elem (some t) p2 c2) dom).1.childList.length =
      c2.length) ∧
    (∀ j, j < c1.length → j < c2.length →
      (diffNode (.elem (some t) p1 c1) (.elem (some t) p2 c2)
          dom).1.childList.getD j (.text "") =
        (diffNode (c1.getD j (.text "")) (c2.getD j (.text ""))
          (dom.childList.getD j (.text ""))).1) ∧
    (∀ j, c1.length ≤ j → j < c2.length →
      (diffNode (.elem (some t) p1 c1) (.elem (some t) p2 c2)
          dom).1.childList.getD j (.text "") = createTree (c2.getD j (.text ""))) := by
  rcases realizes_elem_inv hr with ⟨attrs, cs, hdom, hae, hrl⟩
  subst hdom
  have hlen : cs.length = c1.length := realizesList_length hrl
  have hres : (diffNode (.elem (some t) p1 c1) (.elem (some t) p2 c2)
      (.element t attrs cs)).1 =
      .element t (attrPhase p1 p2 attrs).1 (childPhaseNodes c1 c2 cs 0) := by
    rw [diffNode_elem_eq]
    rfl
  have hcl : (diffNode (.elem (some t) p1 c1) (.elem (some t) p2 c2)
      (.element t attrs cs)).1.childList = childPhaseNodes c1 c2 cs 0 := by
    rw [hres]
    rfl
  have hlen2 : (childPhaseNodes c1 c2 cs 0).length = c2.length :=
    childPhaseNodes_length c1 c2 cs 0 hlen
  refine ⟨?_, ?_, ?_⟩
  · rw [hcl]
    exact hlen2
  · intro j hj1 hj2
    have hj3 : j < cs.length := by omega
    have hj4 : j < (childPhaseNodes c1 c2 cs 0).length := by omega
    rw [hcl]
    simp only [DomNode.childList]
    rw [getD_eq_get _ j hj4, getD_eq_get c1 j hj1, getD_eq_get c2 j hj2,
      getD_eq_get cs j hj3]
    exact childPhaseNodes_get_lt c1 c2 cs 0 j hlen hj1 hj2 hj3 hj4
  · intro j hge hj2
    have hj4 : j < (childPhaseNodes c1 c2 cs 0).length := by omega
    rw [hcl]
    rw [getD_eq_get _ j hj4, getD_eq_get c2 j hj2]
    exact childPhaseNodes_get_ge c1 c2 cs 0 j hlen hge hj2 hj4

theorem claim_C3_witness :
    ((diffNode (.elem (some "ul") [] [.text "a", .text "b", .text "c"])
      (.elem (some "ul") [] [.text "a"])
      (createTree (.elem (some "ul") [] [.text "a", .text "b", .text "c"]))).1).childList.length = 1 :=
  (claim_C3 "ul" [] [] [.text "a", .text "b", .text "c"] [.text "a"]
    (createTree (.elem (some "ul") [] [.text "a", .text "b", .text "c"]))
    (by rfl) (by rfl) (by rfl)).1

/-- Claim C4: reconciling a well-formed description against itself, on the
live tree freshly built from it, produces no observable mutation anywhere in
the recursion: the node is returned unchanged and not replaced, and the trace
of attribute writes and removals, text writes, and child insertions, removals
and replacements is empty. -/
theorem claim_C4 (d : VNode) (h : VNode.wf d = true) :
    diffNode d d (createTree d) = (createTree d, false, []) :=
  diffNode_self d (createTree d) h (createTree_realizes d h)

theorem claim_C4_witness :
    diffNode (.elem (some "div") [("id", "x")] [.text "hi", .elem (some "b") [] []])
      (.elem (some "div") [("id", "x")] [.text "hi", .elem (some "b") [] []])
      (createTree (.elem (some "div") [("id", "x")]
        [.text "hi", .elem (some "b") [] []])) =
    (createTree (.elem (some "div") [("id", "x")]
      [.text "hi", .elem (some "b") [] []]), false, []) :=
  claim_C4 (.elem (some "div") [("id", "x")] [.text "hi", .elem (some "b") [] []])
    (by rfl)

/-- Claim C5: for any two well-formed descriptions a and b, reconciling a to b
and then b to a on the same live position, starting from the tree built from
a, restores a tree attribute-for-attribute and child-count-for-child-count
equal, at every level, to the tree the builder produces from a. -/
theorem claim_C5 (a b : VNode) (ha : VNode.wf a = true) (hb : VNode.wf b = true) :
    treeEquiv (diffNode b a (diffNode a b (createTree a)).1).1 (createTree a) = true := by
  have h0 := createTree_realizes a ha
  have h1 := diffNode_realizes a b (createTree a) ha hb h0
  have h2 := diffNode_realizes b a (diffNode a b (createTree a)).1 hb ha h1
  exact realizes_unique a _ _ h2 h0

theorem claim_C5_witness :
    treeEquiv (diffNode (.elem (some "div") [("class", "b")] [.text "bye"])
      (.elem (some "div") [("class", "a")] [.text "hi"])
      (diffNode (.elem (some "div") [("class", "a")] [.text "hi"])
        (.elem (some "div") [("class", "b")] [.text "bye"])
        (createTree (.elem (some "div") [("class", "a")] [.text "hi"]))).1).1
      (createTree (.elem (some "div") [("class", "a")] [.text "hi"])) = true :=
  claim_C5 (.elem (some "div") [("class", "a")] [.text "hi"])
    (.elem (some "div") [("class", "b")] [.text "bye"]) (by rfl) (by rfl)

/-- Claim C6: a mixed-shape pair (text description against element
description, or vice versa) is a full rebuild-and-replace, exactly like the
different-tag-name case: the result is a fresh tree built from the new
description, the node identity changes (replaced flag), and nothing of the old
live subtree is reused or mutated (empty trace). -/
theorem claim_C6 (s t2 : String) (np : List (String × String)) (nc : List VNode)
    (dom : DomNode) :
    diffNode (.text s) (.elem (some t2) np nc) dom =
      (createTree (.elem (some t2) np nc), true, []) ∧
    diffNode (.elem (some t2) np nc) (.text s) dom =
      (createTree (.text s), true, []) := by
  constructor <;> simp [diffNode, jsType]

/-- Claim C7: reconciling two text descriptions against the corresponding live
text node mutates nothing when the strings are equal, and otherwise writes the
new string into the same node in place (no replacement) with no other
mutation. -/
theorem claim_C7 (s t : String) :
    diffNode (.text s) (.text t) (.text s) =
      ((if s = t then DomNode.text s else DomNode.text t), false,
        (if s = t then ([] : List Mut) else [Mut.setText [] t])) := by
  by_cases h : s = t
  · subst h
    simp [diffNode]
  · simp [diffNode, bne_iff_ne, h, DomNode.setTextContent]

/-- Claim C8: building a well-formed description succeeds and yields a live
tree that represents it exactly: a text description becomes a text node with
that very string, and an element description becomes an element with that tag,
the attribute mapping set verbatim, and each child built recursively and
appended in order.  The builder is a pure function of the description: it
allocates the returned subtree and touches no pre-existing node. -/
theorem claim_C8 (d : VNode) (h : VNode.wf d = true) :
    realizes (createTree d) d = true ∧
    (∀ s, d = .text s → createTree d = .text s) ∧
    (∀ t props children, d = .elem (some t) props children →
      createTree d = .element t props (createTreeList children)) := by
  refine ⟨createTree_realizes d h, ?_, ?_⟩
  · intro s he
    subst he
    rfl
  · intro t props children he
    subst he
    show DomNode.element ((some t).getD "undefined") (buildAttrs props) _ = _
    rw [Option.getD_some, buildAttrs_eq_self (wf_elem_parts h).2.1]

theorem claim_C8_witness :
    realizes (createTree (.elem (some "p") [("id", "y")] [.text "t"]))
      (.elem (some "p") [("id", "y")] [.text "t"]) = true :=
  (claim_C8 (.elem (some "p") [("id", "y")] [.text "t"]) (by rfl)).1

/-- Claim C9 (amended): a null live node passed where a parent is expected
does make the reconciler fail fast, before any mutation of the live tree (the
fault trace is empty); but a malformed element description missing its tag
name does not fault: building it completes silently, producing an element
whose tag reads "undefined" (the JS host stringifies the missing tag), and
the reconciler appends that element without raising anything. -/
theorem claim_C9_amended :
    (∀ newV : Option VNode, diff none newV none = .fault []) ∧
    (diff none (some (.elem none [] [])) (some (.element "div" [] [])) =
      .ok (some (.element "div" [] [.element "undefined" [] []])) false
        [Mut.appendChild [] (.element "undefined" [] [])]) := by
  constructor
  · intro newV
    cases newV <;> rfl
  · rfl

theorem claim_C9_counterexample :
    createTree (.elem none [] []) = .element "undefined" [] [] ∧
    diff none (some (.elem none [] [])) (some (.element "div" [] [])) =
      .ok (some (.element "div" [] [.element "undefined" [] []])) false
        [Mut.appendChild [] (.element "undefined" [] [])] :=
  ⟨rfl, rfl⟩

/-- Claim C10: a call with both descriptions null and a non-null live node is
neither a removal nor a no-op: the old-is-null branch runs first and calls the
builder on the null description, which faults dereferencing the missing tag
before any appendChild, so the call faults with an empty mutation trace and
the live node and its children are untouched. -/
theorem claim_C10 (p : DomNode) : diff none none (some p) = .fault [] := rfl
